import Mathlib

/-!
# Verification of the email spam-classifier preprocessing pipeline

Shallow embedding of the repository's `main.py` preprocessing core:

* `html_to_plain_text`  — regex-based HTML-to-text conversion;
* `email_to_text`       — MIME part traversal selecting plain text or HTML;
* `EmailToWordCounterTransformer` — text normalisation producing word counts;
* `WordCounterToVectorTransformer` — vocabulary fit and sparse vectorisation.

Python `Counter`/`dict` values are modelled as insertion-ordered association
lists (`List (String × Nat)`): Python dicts preserve insertion order, and a
key is inserted on its first assignment.  Regex substitutions are modelled
by explicit character-list scanners with the same leftmost, non-overlapping
match semantics; the scanners use a fuel argument that is always supplied
as `length + 1`, which is sufficient since every step consumes at least one
character.
-/

set_option autoImplicit false

namespace SpamPipeline

/-- A `WordCount` models a Python `Counter` mapping token → count:
an insertion-ordered association list. -/
abbrev WordCount := List (String × Nat)

/-- `total_count[word] += d` on a Python `Counter`: add to an existing key
in place, or append the new key at the end (dicts insert at the end). -/
def updateCount : List (String × Nat) → String → Nat → List (String × Nat)
  | [], w, d => [(w, d)]
  | (w', c) :: rest, w, d =>
    if w' = w then (w', c + d) :: rest else (w', c) :: updateCount rest w d

/-- `m.get(w, d)` on a Python dict. -/
def lookupD : List (String × Nat) → String → Nat → Nat
  | [], _, d => d
  | (w', c) :: rest, w, d => if w' = w then c else lookupD rest w d

/-- Keys of an association list, in order. -/
def keysOf (m : List (String × Nat)) : List String := m.map Prod.fst

/-- The inner loop of `WordCounterToVectorTransformer.fit`:
`for word, count in word_count.items(): total_count[word] += min(count, 10)`. -/
def addCapped (acc : List (String × Nat)) (wc : WordCount) : List (String × Nat) :=
  wc.foldl (fun a p => updateCount a p.1 (min p.2 10)) acc

/-- The `total_count` accumulated by `WordCounterToVectorTransformer.fit`
over the batch `X`. -/
def totalCount (X : List WordCount) : List (String × Nat) :=
  X.foldl addCapped []

theorem lookupD_updateCount (m : List (String × Nat)) (w u : String) (d : Nat) :
    lookupD (updateCount m w d) u 0 =
      lookupD m u 0 + (if w = u then d else 0) := by
  induction m with
  | nil =>
    by_cases h : w = u <;> simp [updateCount, lookupD, h]
  | cons p rest ih =>
    obtain ⟨w', c⟩ := p
    by_cases h1 : w' = w
    · subst h1
      by_cases h2 : w' = u <;> simp [updateCount, lookupD, h2]
    · by_cases h2 : w' = u
      · subst h2
        have : ¬ w = w' := fun h => h1 h.symm
        simp [updateCount, lookupD, h1, this]
      · simp [updateCount, lookupD, h1, h2, ih]

theorem lookupD_eq_zero_of_not_mem (m : List (String × Nat)) (u : String)
    (h : u ∉ keysOf m) : lookupD m u 0 = 0 := by
  induction m with
  | nil => rfl
  | cons p rest ih =>
    simp [keysOf] at h
    simp [lookupD, h.1, ih (by simp [keysOf, h.2])]
    intro hc
    exact absurd hc.symm h.1

theorem lookupD_addCapped (wc : WordCount) (acc : List (String × Nat)) (u : String)
    (hnd : (keysOf wc).Nodup) :
    lookupD (addCapped acc wc) u 0 =
      lookupD acc u 0 + min (lookupD wc u 0) 10 := by
  induction wc generalizing acc with
  | nil => simp [addCapped, lookupD]
  | cons p rest ih =>
    obtain ⟨w, c⟩ := p
    simp only [keysOf, List.map_cons, List.nodup_cons] at hnd
    have hrec := ih (updateCount acc w (min c 10)) hnd.2
    simp only [addCapped, List.foldl_cons] at hrec ⊢
    rw [hrec, lookupD_updateCount]
    by_cases h : w = u
    · subst h
      have : lookupD rest w 0 = 0 :=
        lookupD_eq_zero_of_not_mem rest w (by simpa [keysOf] using hnd.1)
      simp [lookupD, this]
    · simp [lookupD, h]

theorem lookupD_foldl_addCapped (X : List WordCount) (acc : List (String × Nat))
    (u : String) (hnd : ∀ wc ∈ X, (keysOf wc).Nodup) :
    lookupD (X.foldl addCapped acc) u 0 =
      lookupD acc u 0 + (X.map (fun wc => min (lookupD wc u 0) 10)).sum := by
  induction X generalizing acc with
  | nil => simp
  | cons wc rest ih =>
    simp only [List.foldl_cons, List.map_cons, List.sum_cons]
    rw [ih _ (fun w hw => hnd w (List.mem_cons_of_mem _ hw)),
      lookupD_addCapped wc acc u (hnd wc (List.mem_cons_self _ _))]
    omega

/-- **C1.** `WordCounterToVectorTransformer.fit` ranks each token by the sum,
over the messages of the batch, of `min(count_in_that_message, 10)`: each
message's contribution per token is capped at 10 before summing. -/
theorem claim_C1 (X : List WordCount) (u : String)
    (hnd : ∀ wc ∈ X, (keysOf wc).Nodup) :
    lookupD (totalCount X) u 0 =
      (X.map (fun wc => min (lookupD wc u 0) 10)).sum := by
  have h := lookupD_foldl_addCapped X [] u hnd
  simpa [totalCount, lookupD] using h

/-- Witness for C1: a token occurring 50 times in one message and 3 times in
another gets ranking total `min 50 10 + min 3 10 = 13`, not 53. -/
theorem claim_C1_witness :
    lookupD (totalCount [[("spam", 50)], [("spam", 3), ("eggs", 1)]]) "spam" 0 = 13 :=
  (claim_C1 [[("spam", 50)], [("spam", 3), ("eggs", 1)]] "spam" (by decide)).trans
    (by decide)

/-- Stable insertion into a count-descending list: the new element goes after
every element with a strictly larger count and before the first element with a
smaller-or-equal count. -/
def insertDesc (p : String × Nat) : List (String × Nat) → List (String × Nat)
  | [] => [p]
  | q :: rest => if p.2 < q.2 then q :: insertDesc p rest else p :: q :: rest

/-- Stable sort by count descending. `Counter.most_common()` is
`sorted(items, key=count, reverse=True)`, a stable descending sort over the
insertion-ordered items, which this insertion sort reproduces. -/
def sortDesc : List (String × Nat) → List (String × Nat)
  | [] => []
  | p :: rest => insertDesc p (sortDesc rest)

/-- Python `enumerate` starting at `n`. -/
def enumFrom {α : Type} : Nat → List α → List (Nat × α)
  | _, [] => []
  | n, a :: l => (n, a) :: enumFrom (n + 1) l

/-- The list `[n, n+1, ..., n+k-1]`. -/
def idxList : Nat → Nat → List Nat
  | _, 0 => []
  | n, k + 1 => n :: idxList (n + 1) k

/-- `WordCounterToVectorTransformer.fit`: cap-sum the counts, take the top
`vocabulary_size` by `most_common`, and map each chosen word to
`index + 1` in ranked order (the dict comprehension over `enumerate`). -/
def fitVocab (X : List WordCount) (v : Nat) : List (String × Nat) :=
  (enumFrom 0 ((sortDesc (totalCount X)).take v)).map (fun p => (p.2.1, p.1 + 1))

theorem mem_insertDesc (p a : String × Nat) (l : List (String × Nat)) :
    a ∈ insertDesc p l ↔ a = p ∨ a ∈ l := by
  induction l with
  | nil => simp [insertDesc]
  | cons q rest ih =>
    by_cases h : p.2 < q.2
    · simp [insertDesc, h, ih]
      tauto
    · simp [insertDesc, h]

theorem pairwise_insertDesc (p : String × Nat) (l : List (String × Nat))
    (h : l.Pairwise (fun a b => b.2 ≤ a.2)) :
    (insertDesc p l).Pairwise (fun a b => b.2 ≤ a.2) := by
  induction l with
  | nil => simp [insertDesc]
  | cons q rest ih =>
    rw [List.pairwise_cons] at h
    by_cases hlt : p.2 < q.2
    · rw [insertDesc, if_pos hlt, List.pairwise_cons]
      refine ⟨fun a ha => ?_, ih h.2⟩
      rcases (mem_insertDesc p a rest).mp ha with rfl | ha
      · exact Nat.le_of_lt hlt
      · exact h.1 a ha
    · rw [insertDesc, if_neg hlt, List.pairwise_cons]
      refine ⟨fun a ha => ?_, List.pairwise_cons.mpr h⟩
      rcases List.mem_cons.mp ha with rfl | ha
      · exact Nat.le_of_not_lt hlt
      · exact Nat.le_trans (h.1 a ha) (Nat.le_of_not_lt hlt)

theorem pairwise_sortDesc (l : List (String × Nat)) :
    (sortDesc l).Pairwise (fun a b => b.2 ≤ a.2) := by
  induction l with
  | nil => simp [sortDesc]
  | cons p rest ih => exact pairwise_insertDesc p (sortDesc rest) ih

theorem filter_insertDesc (p : String × Nat) (l : List (String × Nat)) (c : Nat)
    (h : l.Pairwise (fun a b => b.2 ≤ a.2)) :
    (insertDesc p l).filter (fun q => q.2 == c) =
      if p.2 = c then p :: l.filter (fun q => q.2 == c)
      else l.filter (fun q => q.2 == c) := by
  induction l with
  | nil =>
    by_cases hp : p.2 = c <;> simp [insertDesc, List.filter_cons, hp]
  | cons q rest ih =>
    rw [List.pairwise_cons] at h
    by_cases hlt : p.2 < q.2
    · rw [insertDesc, if_pos hlt]
      by_cases hp : p.2 = c
      · have hq : ¬ q.2 = c := by omega
        simp [List.filter_cons, hq, ih h.2, hp]
      · by_cases hq : q.2 = c <;>
          simp [List.filter_cons, hq, ih h.2, hp]
    · rw [insertDesc, if_neg hlt]
      by_cases hp : p.2 = c <;> simp [List.filter_cons, hp]

theorem filter_sortDesc (l : List (String × Nat)) (c : Nat) :
    (sortDesc l).filter (fun q => q.2 == c) = l.filter (fun q => q.2 == c) := by
  induction l with
  | nil => rfl
  | cons p rest ih =>
    rw [sortDesc, filter_insertDesc p (sortDesc rest) c (pairwise_sortDesc rest)]
    by_cases hp : p.2 = c <;> simp [List.filter_cons, hp, ih]

theorem enumFrom_length {α : Type} (n : Nat) (l : List α) :
    (enumFrom n l).length = l.length := by
  induction l generalizing n with
  | nil => rfl
  | cons a l ih => simp [enumFrom, ih]

theorem enumFrom_map_snd {α : Type} (n : Nat) (l : List α) :
    (enumFrom n l).map Prod.snd = l := by
  induction l generalizing n with
  | nil => rfl
  | cons a l ih => simp [enumFrom, ih]

theorem enumFrom_map_idx {α : Type} (n : Nat) (l : List α) :
    (enumFrom n l).map (fun p => p.1 + 1) = idxList (n + 1) l.length := by
  induction l generalizing n with
  | nil => rfl
  | cons a l ih => simp [enumFrom, idxList, ih]

theorem mem_idxList_lt (m n k : Nat) (h : m ∈ idxList n k) : m < n + k := by
  induction k generalizing n with
  | zero => simp [idxList] at h
  | succ k ih =>
    rcases List.mem_cons.mp h with rfl | h
    · omega
    · have := ih (n + 1) h
      omega

theorem zero_not_mem_idxList (n k : Nat) : 0 ∉ idxList (n + 1) k := by
  induction k generalizing n with
  | zero => simp [idxList]
  | succ k ih =>
    simp only [idxList, List.mem_cons]
    rintro (h | h)
    · omega
    · exact ih (n + 1) h

theorem keysOf_updateCount (m : List (String × Nat)) (w : String) (d : Nat) :
    keysOf (updateCount m w d) =
      if w ∈ keysOf m then keysOf m else keysOf m ++ [w] := by
  induction m with
  | nil => simp [updateCount, keysOf]
  | cons p rest ih =>
    obtain ⟨w', c⟩ := p
    by_cases h : w' = w
    · subst h
      simp [updateCount, keysOf]
    · have : ¬ w = w' := fun hc => h hc.symm
      simp only [updateCount, if_neg h, keysOf, List.map_cons] at ih ⊢
      rw [ih]
      by_cases hm : w ∈ List.map Prod.fst rest <;> simp [keysOf, hm, this]

/-- The per-message step of first-encounter key collection. -/
def addKeys (acc : List String) (wc : WordCount) : List String :=
  wc.foldl (fun a p => if p.1 ∈ a then a else a ++ [p.1]) acc

/-- Tokens of the batch in the order they are first encountered while
iterating the batch (the insertion order of the `total_count` Counter). -/
def firstOrder (X : List WordCount) : List String :=
  X.foldl addKeys []

theorem keysOf_addCapped (wc : WordCount) (acc : List (String × Nat)) :
    keysOf (addCapped acc wc) = addKeys (keysOf acc) wc := by
  induction wc generalizing acc with
  | nil => rfl
  | cons p rest ih =>
    simp only [addCapped, List.foldl_cons, addKeys] at ih ⊢
    rw [ih, keysOf_updateCount]

theorem keysOf_totalCount (X : List WordCount) :
    keysOf (totalCount X) = firstOrder X := by
  have main : ∀ (acc : List (String × Nat)),
      keysOf (X.foldl addCapped acc) = X.foldl addKeys (keysOf acc) := by
    induction X with
    | nil => intro acc; rfl
    | cons wc rest ih =>
      intro acc
      simp only [List.foldl_cons]
      rw [ih, keysOf_addCapped]
  exact main []

theorem fitVocab_length (X : List WordCount) (v : Nat) :
    (fitVocab X v).length = ((sortDesc (totalCount X)).take v).length := by
  simp [fitVocab, enumFrom_length]

theorem fitVocab_map_snd (X : List WordCount) (v : Nat) :
    (fitVocab X v).map Prod.snd = idxList 1 (fitVocab X v).length := by
  rw [fitVocab_length]
  have := enumFrom_map_idx 0 ((sortDesc (totalCount X)).take v)
  simpa [fitVocab, List.map_map, Function.comp] using this

theorem mem_idxList_ge (m n k : Nat) (h : m ∈ idxList n k) : n ≤ m := by
  induction k generalizing n with
  | zero => simp [idxList] at h
  | succ k ih =>
    rcases List.mem_cons.mp h with rfl | h
    · omega
    · have := ih (n + 1) h
      omega

theorem fitVocab_snd_le (X : List WordCount) (v : Nat) :
    ∀ p ∈ fitVocab X v, p.2 ≤ v := by
  intro p hp
  have hmem : p.2 ∈ (fitVocab X v).map Prod.snd := List.mem_map_of_mem _ hp
  rw [fitVocab_map_snd] at hmem
  have hlt := mem_idxList_lt p.2 1 (fitVocab X v).length hmem
  have hle : (fitVocab X v).length ≤ v := by
    rw [fitVocab_length, List.length_take]
    exact Nat.min_le_left _ _
  omega

theorem fitVocab_snd_ne_zero (X : List WordCount) (v : Nat) :
    ∀ p ∈ fitVocab X v, p.2 ≠ 0 := by
  intro p hp
  have hmem : p.2 ∈ (fitVocab X v).map Prod.snd := List.mem_map_of_mem _ hp
  rw [fitVocab_map_snd] at hmem
  have := mem_idxList_ge p.2 1 (fitVocab X v).length hmem
  omega

/-- **C2.** `fit` selects the top `vocabulary_size` tokens of the capped
totals, ordered by capped count descending with ties broken by first-encounter
order (stable sort); the chosen tokens get indices `1, 2, ...` in ranked
order, the mapping has at most `vocabulary_size` entries, and index 0 is never
assigned. -/
theorem claim_C2 (X : List WordCount) (v : Nat) :
    (fitVocab X v).length ≤ v
    ∧ (fitVocab X v).map Prod.fst = ((sortDesc (totalCount X)).take v).map Prod.fst
    ∧ (fitVocab X v).map Prod.snd = idxList 1 (fitVocab X v).length
    ∧ ((fitVocab X v).map Prod.snd).contains 0 = false
    ∧ (sortDesc (totalCount X)).Pairwise (fun a b => b.2 ≤ a.2)
    ∧ (∀ c : Nat, (sortDesc (totalCount X)).filter (fun q => q.2 == c)
        = (totalCount X).filter (fun q => q.2 == c))
    ∧ keysOf (totalCount X) = firstOrder X := by
  refine ⟨?_, ?_, fitVocab_map_snd X v, ?_, pairwise_sortDesc _, filter_sortDesc _,
    keysOf_totalCount X⟩
  · rw [fitVocab_length, List.length_take]
    exact Nat.min_le_left _ _
  · have := enumFrom_map_snd 0 ((sortDesc (totalCount X)).take v)
    calc (fitVocab X v).map Prod.fst
        = ((enumFrom 0 ((sortDesc (totalCount X)).take v)).map Prod.snd).map Prod.fst := by
          simp [fitVocab, List.map_map, Function.comp]
      _ = ((sortDesc (totalCount X)).take v).map Prod.fst := by rw [this]
  · rw [fitVocab_map_snd]
    simpa using zero_not_mem_idxList 0 (fitVocab X v).length

/-- The `(row, col, data)` triplet lists built by
`WordCounterToVectorTransformer.transform` for the rows starting at row `n`:
`cols.append(self.vocabulary_.get(word, 0)); data.append(count)`. -/
def tripletsFrom (voc : List (String × Nat)) : Nat → List WordCount → List (Nat × Nat × Nat)
  | _, [] => []
  | n, wc :: rest =>
    wc.map (fun p => (n, lookupD voc p.1 0, p.2)) ++ tripletsFrom voc (n + 1) rest

/-- The dense entry `(i, j)` of a `csr_matrix` built from triplets: duplicate
`(row, col)` pairs are summed. -/
def entryCSR (ts : List (Nat × Nat × Nat)) (i j : Nat) : Nat :=
  ((ts.filter (fun t => t.1 == i && t.2.1 == j)).map (fun t => t.2.2)).sum

/-- The contribution of one `WordCount` row to column `j`. -/
def rowSum (voc : List (String × Nat)) (wc : WordCount) (j : Nat) : Nat :=
  ((wc.filter (fun p => lookupD voc p.1 0 == j)).map Prod.snd).sum

/-- `WordCounterToVectorTransformer.transform`: the triplets plus the shape
`(len(X), self.vocabulary_size + 1)` passed to `csr_matrix`. -/
def transformCSR (voc : List (String × Nat)) (v : Nat) (X : List WordCount) :
    List (Nat × Nat × Nat) × Nat × Nat :=
  (tripletsFrom voc 0 X, X.length, v + 1)

theorem entryCSR_append (a b : List (Nat × Nat × Nat)) (i j : Nat) :
    entryCSR (a ++ b) i j = entryCSR a i j + entryCSR b i j := by
  simp [entryCSR, List.filter_append]

theorem entryCSR_block (voc : List (String × Nat)) (wc : WordCount) (n j : Nat) :
    entryCSR (wc.map (fun p => (n, lookupD voc p.1 0, p.2))) n j = rowSum voc wc j := by
  induction wc with
  | nil => rfl
  | cons p rest ih =>
    by_cases h : lookupD voc p.1 0 = j <;>
      simp [entryCSR, rowSum, List.filter_cons, h] at ih ⊢ <;> simp [ih]

theorem entryCSR_block_ne (voc : List (String × Nat)) (wc : WordCount) (n i j : Nat)
    (h : i ≠ n) :
    entryCSR (wc.map (fun p => (n, lookupD voc p.1 0, p.2))) i j = 0 := by
  induction wc with
  | nil => rfl
  | cons p rest ih =>
    have : ¬ n = i := fun hc => h hc.symm
    simp [entryCSR, List.filter_cons, this] at ih ⊢
    exact ih

theorem entryCSR_tripletsFrom_lt (voc : List (String × Nat)) (X : List WordCount)
    (n i j : Nat) (h : i < n) : entryCSR (tripletsFrom voc n X) i j = 0 := by
  induction X generalizing n with
  | nil => rfl
  | cons wc rest ih =>
    rw [tripletsFrom, entryCSR_append, entryCSR_block_ne voc wc n i j (by omega),
      ih (n + 1) (by omega)]

theorem entryCSR_tripletsFrom (voc : List (String × Nat)) (X : List WordCount)
    (n i j : Nat) :
    entryCSR (tripletsFrom voc n X) (n + i) j = rowSum voc (X.getD i []) j := by
  induction X generalizing n i with
  | nil => simp [tripletsFrom, entryCSR, rowSum]
  | cons wc rest ih =>
    cases i with
    | zero =>
      rw [tripletsFrom, entryCSR_append]
      rw [show n + 0 = n from rfl, entryCSR_block,
        entryCSR_tripletsFrom_lt voc rest (n + 1) n j (by omega)]
      simp
    | succ k =>
      rw [tripletsFrom, entryCSR_append,
        entryCSR_block_ne voc wc n (n + (k + 1)) j (by omega)]
      have := ih (n + 1) k
      rw [show n + (k + 1) = (n + 1) + k by omega, this]
      simp

theorem lookupD_le_of_all (m : List (String × Nat)) (v : Nat) (w : String)
    (h : ∀ p ∈ m, p.2 ≤ v) : lookupD m w 0 ≤ v := by
  induction m with
  | nil => simp [lookupD]
  | cons p rest ih =>
    obtain ⟨w', c⟩ := p
    rw [lookupD]
    by_cases hw : w' = w
    · rw [if_pos hw]
      exact h (w', c) (List.mem_cons_self _ _)
    · rw [if_neg hw]
      exact ih (fun q hq => h q (List.mem_cons_of_mem _ hq))

theorem mem_tripletsFrom (voc : List (String × Nat)) (X : List WordCount)
    (n : Nat) (t : Nat × Nat × Nat) (h : t ∈ tripletsFrom voc n X) :
    ∃ w : String, t.2.1 = lookupD voc w 0 := by
  induction X generalizing n with
  | nil => simp [tripletsFrom] at h
  | cons wc rest ih =>
    rw [tripletsFrom] at h
    rcases List.mem_append.mp h with h | h
    · obtain ⟨p, _, hp⟩ := List.mem_map.mp h
      exact ⟨p.1, by rw [← hp]⟩
    · exact ih (n + 1) h

theorem lookupD_ne_zero_of_mem (m : List (String × Nat)) (w : String)
    (hw : w ∈ keysOf m) (hnz : ∀ p ∈ m, p.2 ≠ 0) : lookupD m w 0 ≠ 0 := by
  induction m with
  | nil => simp [keysOf] at hw
  | cons p rest ih =>
    obtain ⟨w', c⟩ := p
    rw [lookupD]
    by_cases h : w' = w
    · rw [if_pos h]
      exact hnz (w', c) (List.mem_cons_self _ _)
    · rw [if_neg h]
      rcases List.mem_cons.mp hw with rfl | hw
      · exact absurd rfl h
      · exact ih hw (fun q hq => hnz q (List.mem_cons_of_mem _ hq))

theorem rowSum_zero_eq_oov (voc : List (String × Nat)) (wc : WordCount)
    (hnz : ∀ p ∈ voc, p.2 ≠ 0) :
    rowSum voc wc 0 =
      ((wc.filter (fun p => decide (p.1 ∉ keysOf voc))).map Prod.snd).sum := by
  induction wc with
  | nil => rfl
  | cons p rest ih =>
    by_cases hw : p.1 ∈ keysOf voc
    · have h1 : lookupD voc p.1 0 ≠ 0 := lookupD_ne_zero_of_mem voc p.1 hw hnz
      simp [rowSum, List.filter_cons, h1, hw] at ih ⊢
      exact ih
    · have h1 : lookupD voc p.1 0 = 0 := lookupD_eq_zero_of_not_mem voc p.1 hw
      simp [rowSum, List.filter_cons, h1, hw] at ih ⊢
      exact ih

/-- **C3.** For a fitted vectoriser, `transform` produces one row per input
`WordCount` of length `vocabulary_size + 1`; entry `(i, j)` is the sum of the
full uncapped counts of row `i`'s tokens whose vocabulary index is `j`
(index 0 for out-of-vocabulary tokens); position 0 receives exactly the
counts of the tokens absent from the vocabulary; and every emitted column
index is in bounds, so the `csr_matrix` construction never raises. -/
theorem claim_C3 (tb : List WordCount) (v : Nat) (X : List WordCount) :
    (transformCSR (fitVocab tb v) v X).2 = (X.length, v + 1)
    ∧ (∀ i j : Nat, entryCSR (transformCSR (fitVocab tb v) v X).1 i j
        = rowSum (fitVocab tb v) (X.getD i []) j)
    ∧ (∀ i : Nat, entryCSR (transformCSR (fitVocab tb v) v X).1 i 0
        = (((X.getD i []).filter
            (fun p => decide (p.1 ∉ keysOf (fitVocab tb v)))).map Prod.snd).sum)
    ∧ ((transformCSR (fitVocab tb v) v X).1.all
        (fun t => decide (t.2.1 < v + 1))) = true := by
  have hmain : ∀ i j : Nat, entryCSR (transformCSR (fitVocab tb v) v X).1 i j
      = rowSum (fitVocab tb v) (X.getD i []) j := by
    intro i j
    have := entryCSR_tripletsFrom (fitVocab tb v) X 0 i j
    simpa [transformCSR] using this
  refine ⟨rfl, hmain, ?_, ?_⟩
  · intro i
    rw [hmain i 0, rowSum_zero_eq_oov _ _ (fitVocab_snd_ne_zero tb v)]
  · rw [List.all_eq_true]
    intro t ht
    rw [decide_eq_true_eq]
    obtain ⟨w, hw⟩ := mem_tripletsFrom (fitVocab tb v) X 0 t (by simpa [transformCSR] using ht)
    rw [hw]
    have := lookupD_le_of_all (fitVocab tb v) v w (fitVocab_snd_le tb v)
    omega

/-- **C8.** `fit` is deterministic: fitting twice on the same batch with the
same `vocabulary_size` yields the identical vocabulary mapping. -/
theorem claim_C8 (X1 X2 : List WordCount) (v1 v2 : Nat)
    (hX : X1 = X2) (hv : v1 = v2) : fitVocab X1 v1 = fitVocab X2 v2 := by
  rw [hX, hv]

/-- Witness for C8 at a concrete batch and size. -/
theorem claim_C8_witness :
    fitVocab [[("a", 2)], [("b", 1)]] 1 = fitVocab [[("a", 2)], [("b", 1)]] 1 :=
  claim_C8 [[("a", 2)], [("b", 1)]] [[("a", 2)], [("b", 1)]] 1 1 rfl rfl

/-- The mutable state of a `WordCounterToVectorTransformer` instance:
the configured `vocabulary_size` and the fitted `vocabulary_`. -/
structure VecState where
  vocabulary_size : Nat
  vocabulary_ : List (String × Nat)

/-- `fit` assigns `self.vocabulary_` and returns `self`. -/
def fitVec (st : VecState) (X : List WordCount) : VecState :=
  { st with vocabulary_ := fitVocab X st.vocabulary_size }

/-- `transform` reads `self.vocabulary_` and `self.vocabulary_size`, builds
the sparse matrix, and performs no assignment to `self`: the resulting state
is the incoming state. -/
def transformVec (st : VecState) (X : List WordCount) :
    (List (Nat × Nat × Nat) × Nat × Nat) × VecState :=
  (transformCSR st.vocabulary_ st.vocabulary_size X, st)

/-- **C5.** Any number of `transform` calls after `fit` leaves the fitted
vocabulary exactly as `fit` left it, on any data. -/
theorem claim_C5 (st0 : VecState) (tb : List WordCount)
    (batches : List (List WordCount)) :
    batches.foldl (fun s X => (transformVec s X).2) (fitVec st0 tb) = fitVec st0 tb
    ∧ (fitVec st0 tb).vocabulary_ = fitVocab tb st0.vocabulary_size
    ∧ ∀ X : List WordCount,
        ((transformVec (fitVec st0 tb) X).2).vocabulary_
          = fitVocab tb st0.vocabulary_size := by
  have hfold : ∀ (bs : List (List WordCount)) (s : VecState),
      bs.foldl (fun s X => (transformVec s X).2) s = s := by
    intro bs
    induction bs with
    | nil => intro s; rfl
    | cons b rest ih => intro s; exact ih s
  exact ⟨hfold batches _, rfl, fun X => rfl⟩

/-- Case-insensitive literal prefix match; on success returns the remainder. -/
def matchPrefixInsens : List Char → List Char → Option (List Char)
  | [], cs => some cs
  | _ :: _, [] => none
  | p :: ps, c :: cs =>
    if p.toLower = c.toLower then matchPrefixInsens ps cs else none

/-- Case-sensitive literal prefix match; on success returns the remainder. -/
def matchPrefixCase : List Char → List Char → Option (List Char)
  | [], cs => some cs
  | _ :: _, [] => none
  | p :: ps, c :: cs => if p = c then matchPrefixCase ps cs else none

/-- Remainder after the first occurrence of character `t` (the non-greedy
regex idiom: consume minimally up to the next `t`). -/
def afterChar (t : Char) : List Char → Option (List Char)
  | [] => none
  | c :: cs => if c = t then some cs else afterChar t cs

/-- Remainder after the first (case-insensitive) occurrence of a literal. -/
def afterSubInsens (pat : List Char) : List Char → Option (List Char)
  | [] => matchPrefixInsens pat []
  | c :: cs =>
    match matchPrefixInsens pat (c :: cs) with
    | some r => some r
    | none => afterSubInsens pat cs

/-- `re.sub("<head.*?>.*?</head>", "", html, flags=re.M|re.S|re.I)`: at each
position, match literal `<head` (case-insensitively), then minimally up to
the next `>`, then minimally up to the next `</head>`; remove the whole
region.  Leftmost non-overlapping matches, scanning resumes after a match.
Fuel is always called with `length + 1`; every step consumes at least one
character. -/
def removeHeadGo : Nat → List Char → List Char
  | 0, cs => cs
  | _ + 1, [] => []
  | n + 1, c :: cs =>
    match matchPrefixInsens ['<', 'h', 'e', 'a', 'd'] (c :: cs) with
    | some r1 =>
      match afterChar '>' r1 with
      | some r2 =>
        match afterSubInsens ['<', '/', 'h', 'e', 'a', 'd', '>'] r2 with
        | some r3 => removeHeadGo n r3
        | none => c :: removeHeadGo n cs
      | none => c :: removeHeadGo n cs
    | none => c :: removeHeadGo n cs

/-- The replacement text ` HYPERLINK ` of the anchor substitution. -/
def hyperlinkChars : List Char :=
  [' ', 'H', 'Y', 'P', 'E', 'R', 'L', 'I', 'N', 'K', ' ']

/-- `re.sub("<a\s.*?>", " HYPERLINK ", text, flags=re.M|re.S|re.I)`: literal
`<a` (case-insensitive), one whitespace character, then minimally up to the
next `>`. -/
def anchorGo : Nat → List Char → List Char
  | 0, cs => cs
  | _ + 1, [] => []
  | n + 1, c :: cs =>
    match matchPrefixInsens ['<', 'a'] (c :: cs) with
    | some (w :: r2) =>
      if w.isWhitespace then
        match afterChar '>' r2 with
        | some r3 => hyperlinkChars ++ anchorGo n r3
        | none => c :: anchorGo n cs
      else c :: anchorGo n cs
    | some [] => c :: anchorGo n cs
    | none => c :: anchorGo n cs

/-- `re.sub("<.*?>", "", text, flags=re.M|re.S)`: a `<` then minimally up to
the next `>`. -/
def tagGo : Nat → List Char → List Char
  | 0, cs => cs
  | _ + 1, [] => []
  | n + 1, c :: cs =>
    if c = '<' then
      match afterChar '>' cs with
      | some r => tagGo n r
      | none => c :: tagGo n cs
    else c :: tagGo n cs

/-- The suffix after the last newline of a list, if the list has one. -/
def afterLastNl : List Char → Option (List Char)
  | [] => none
  | c :: cs =>
    match afterLastNl cs with
    | some r => some r
    | none => if c = '\n' then some cs else none

/-- `re.sub(r"(\s*\n)+", "\n", text, flags=re.M|re.S)`: a match at a position
spans the contiguous whitespace run up to and including its last newline (the
greedy repetition of `\s*\n` groups), replaced by a single newline; a
whitespace run with no newline does not match. -/
def newlineGo : Nat → List Char → List Char
  | 0, cs => cs
  | _ + 1, [] => []
  | n + 1, c :: cs =>
    if c.isWhitespace then
      match afterLastNl (List.takeWhile Char.isWhitespace (c :: cs)) with
      | some tail =>
        '\n' :: newlineGo n (tail ++ List.dropWhile Char.isWhitespace (c :: cs))
      | none => c :: newlineGo n cs
    else c :: newlineGo n cs

/-- Modelled from the spec: the final step of `html_to_plain_text` calls the
Python standard library's `html.unescape` ("unescapes html entities (such as
&gt; or &nbsp;)"), which is outside the repository; modelled here restricted
to the common named entities `&amp; &lt; &gt; &quot; &nbsp;`. -/
def unescGo : Nat → List Char → List Char
  | 0, cs => cs
  | _ + 1, [] => []
  | n + 1, c :: cs =>
    if c = '&' then
      match matchPrefixCase ['a', 'm', 'p', ';'] cs with
      | some r => '&' :: unescGo n r
      | none =>
        match matchPrefixCase ['l', 't', ';'] cs with
        | some r => '<' :: unescGo n r
        | none =>
          match matchPrefixCase ['g', 't', ';'] cs with
          | some r => '>' :: unescGo n r
          | none =>
            match matchPrefixCase ['q', 'u', 'o', 't', ';'] cs with
            | some r => '"' :: unescGo n r
            | none =>
              match matchPrefixCase ['n', 'b', 's', 'p', ';'] cs with
              | some r => ' ' :: unescGo n r
              | none => c :: unescGo n cs
    else c :: unescGo n cs

/-- `html_to_plain_text`: drop `<head>` sections, replace anchors by
` HYPERLINK `, strip the remaining tags, collapse newline runs, and unescape
entities — in that order. -/
def htmlToPlainText (html : String) : String :=
  let t1 := removeHeadGo (html.data.length + 1) html.data
  let t2 := anchorGo (t1.length + 1) t1
  let t3 := tagGo (t2.length + 1) t2
  let t4 := newlineGo (t3.length + 1) t3
  ⟨unescGo (t4.length + 1) t4⟩

/-- Substring test on character lists. -/
def hasSubList (needle : List Char) : List Char → Bool
  | [] => needle.isEmpty
  | c :: cs => needle.isPrefixOf (c :: cs) || hasSubList needle cs

/-- `needle in hay` on strings. -/
def strContainsSub (hay needle : String) : Bool :=
  hasSubList needle.data hay.data

/-- A single-quote character, used to spell the C7 input HTML string. -/
def squote : String := ⟨['\u0027']⟩

/-- The HTML input of the C7 test case:
`<head><title>x</title></head><body><a href='x'>link</a> Hello &amp; welcome</body>`. -/
def c7input : String :=
  "<head><title>x</title></head><body><a href=" ++ squote ++ "x" ++ squote
    ++ ">link</a> Hello &amp; welcome</body>"

/-- **C7.** On the given HTML, `html_to_plain_text` yields text containing
` HYPERLINK ` and `Hello & welcome` and no `x` from the title: head-stripping
and anchor-replacement run before generic tag-stripping, and entity decoding
runs last. -/
theorem claim_C7 :
    strContainsSub (htmlToPlainText c7input) " HYPERLINK " = true
    ∧ strContainsSub (htmlToPlainText c7input) "Hello & welcome" = true
    ∧ (htmlToPlainText c7input).data.contains 'x' = false := by
  refine ⟨?_, ?_, ?_⟩ <;> decide

/-- A parsed message part: a leaf part carrying its decoded content (or, on a
decoding error, the raw-payload fallback string), or a multipart container
with ordered children.  The email parser marks a part as multipart exactly
when its content type is `multipart/<subtype>`, so a composite part's
content type never equals `text/plain` or `text/html`. -/
inductive EmailMsg where
  | leaf (ctype : String) (content : String)
  | multi (subtype : String) (parts : List EmailMsg)

/-- `part.get_content_type()`. -/
def getContentType : EmailMsg → String
  | .leaf c _ => c
  | .multi s _ => "multipart/" ++ s

/-- `part.get_content()` with the `except` fallback.  `email_to_text` only
reaches this after the content-type test, which a multipart content type
never passes (see `multi_ctype_not_text`), so the multipart branch is
unreachable there and returns the empty string. -/
def partContent : EmailMsg → String
  | .leaf _ content => content
  | .multi _ _ => ""

mutual

/-- `email.walk()`: the part itself, then its children depth-first. -/
def walk : EmailMsg → List EmailMsg
  | .leaf c s => [.leaf c s]
  | .multi s ps => .multi s ps :: walkList ps

def walkList : List EmailMsg → List EmailMsg
  | [] => []
  | m :: ms => walk m ++ walkList ms

end

/-- The loop of `email_to_text` over a list of parts, carrying the `html`
variable; at the end, `if html: return html_to_plain_text(html)` — the
recorded HTML is tested for truthiness, so `None` and `""` both give `None`. -/
def emailToTextGo : List EmailMsg → Option String → Option String
  | [], html =>
    match html with
    | some h => if h = "" then none else some (htmlToPlainText h)
    | none => none
  | p :: rest, html =>
    if getContentType p = "text/plain" ∨ getContentType p = "text/html" then
      if getContentType p = "text/plain" then some (partContent p)
      else emailToTextGo rest (some (partContent p))
    else emailToTextGo rest html

/-- `email_to_text(email)`. -/
def emailToText (m : EmailMsg) : Option String :=
  emailToTextGo (walk m) none

/-- The value of the `html` variable after traversing `parts` starting from
`acc`: each `text/html` part overwrites it with that part's content. -/
def lastHtmlAux (parts : List EmailMsg) (acc : Option String) : Option String :=
  parts.foldl
    (fun a p => if getContentType p = "text/html" then some (partContent p) else a) acc

/-- Whether some part of the list is a `text/plain` part. -/
def hasPlain (parts : List EmailMsg) : Bool :=
  parts.any (fun p => getContentType p == "text/plain")

/-- The final `if html:` step of `email_to_text`. -/
def finalizeHtml : Option String → Option String
  | some h => if h = "" then none else some (htmlToPlainText h)
  | none => none

/-- A multipart container's content type is never `text/plain` or
`text/html`, so `email_to_text` always skips container nodes. -/
theorem multi_ctype_not_text (s : String) (ps : List EmailMsg) :
    getContentType (.multi s ps) ≠ "text/plain"
    ∧ getContentType (.multi s ps) ≠ "text/html" := by
  have h1 : ("multipart/" : String).length = 10 := rfl
  constructor <;> intro h <;>
    simp only [getContentType] at h <;>
    have hlen := congrArg String.length h <;>
    rw [String.length_append, h1] at hlen
  · have h2 : ("text/plain" : String).length = 10 := rfl
    rw [h2] at hlen
    have hs : s.length = 0 := by omega
    have hdata : s.data = [] := List.length_eq_zero.mp hs
    have hsempty : s = "" := by
      cases s
      simp only at hdata
      rw [hdata]
    rw [hsempty] at h
    exact absurd h (by decide)
  · have h2 : ("text/html" : String).length = 9 := rfl
    rw [h2] at hlen
    omega

theorem emailToTextGo_noPlain (parts : List EmailMsg) (acc : Option String)
    (h : hasPlain parts = false) :
    emailToTextGo parts acc = finalizeHtml (lastHtmlAux parts acc) := by
  induction parts generalizing acc with
  | nil => rfl
  | cons p rest ih =>
    rw [hasPlain, List.any_cons, Bool.or_eq_false_iff] at h
    have hp : ¬ getContentType p = "text/plain" := by
      intro hc
      rw [hc] at h
      exact absurd h.1 (by decide)
    by_cases hh : getContentType p = "text/html"
    · rw [emailToTextGo, if_pos (Or.inr hh), if_neg hp, ih _ h.2]
      simp [lastHtmlAux, hh]
    · rw [emailToTextGo, if_neg (by tauto), ih _ h.2]
      simp [lastHtmlAux, hh]

/-- Counterexample to C4 as stated: a message whose only candidate part is a
`text/html` part with empty content.  C4 claims the result is `HtmlToText`
applied to the recorded content, i.e. `some (htmlToPlainText "")`; the code
tests the recorded HTML for truthiness and returns `None` instead. -/
theorem claim_C4_counterexample :
    emailToText (.multi "mixed" [.leaf "text/html" ""]) = none
    ∧ emailToText (.multi "mixed" [.leaf "text/html" ""])
        ≠ some (htmlToPlainText "") := by
  refine ⟨rfl, ?_⟩
  intro h
  rw [show emailToText (.multi "mixed" [.leaf "text/html" ""]) = none from rfl] at h
  exact Option.noConfusion h

/-- **C4 (amended).** `email_to_text` skips parts whose content type is
neither `text/plain` nor `text/html`; on the first `text/plain` part it
returns that part's content immediately; and when traversal completes
without a plain-text part it returns `HtmlToText` of the last recorded
`text/html` content, provided that recorded content is non-empty. -/
theorem claim_C4 :
    (∀ (p : EmailMsg) (rest : List EmailMsg) (acc : Option String),
        getContentType p ≠ "text/plain" → getContentType p ≠ "text/html" →
        emailToTextGo (p :: rest) acc = emailToTextGo rest acc)
    ∧ (∀ (p : EmailMsg) (rest : List EmailMsg) (acc : Option String),
        getContentType p = "text/plain" →
        emailToTextGo (p :: rest) acc = some (partContent p))
    ∧ (∀ (parts : List EmailMsg) (h0 : String),
        hasPlain parts = false → lastHtmlAux parts none = some h0 → h0 ≠ "" →
        emailToTextGo parts none = some (htmlToPlainText h0))
    ∧ (∀ m : EmailMsg, emailToText m = emailToTextGo (walk m) none) := by
  refine ⟨?_, ?_, ?_, fun m => rfl⟩
  · intro p rest acc h1 h2
    rw [emailToTextGo, if_neg (by tauto)]
  · intro p rest acc h1
    rw [emailToTextGo, if_pos (Or.inl h1), if_pos h1]
  · intro parts h0 hp hl hne
    rw [emailToTextGo_noPlain parts none hp, hl, finalizeHtml, if_neg hne]

/-- Witness for the amended C4: skipping plus short-circuit on a concrete
two-part message, and the HTML fallback on a concrete non-empty HTML part. -/
theorem claim_C4_witness :
    emailToTextGo [.leaf "image/png" "z", .leaf "text/plain" "yes"] none = some "yes"
    ∧ emailToTextGo [.leaf "text/html" "<b>hi</b>"] none = some "hi" := by
  constructor
  · exact (claim_C4.1 (.leaf "image/png" "z") [.leaf "text/plain" "yes"] none
      (by decide) (by decide)).trans
      (claim_C4.2.1 (.leaf "text/plain" "yes") [] none rfl)
  · exact (claim_C4.2.2.1 [.leaf "text/html" "<b>hi</b>"] "<b>hi</b>"
      (by decide) rfl (by decide)).trans (by decide)

/-- **C10.** For a message with no `text/plain` part whose last `text/html`
part has empty-string content, `email_to_text` returns `None` rather than
the HTML-to-text conversion of the empty string. -/
theorem claim_C10 (m : EmailMsg)
    (hp : hasPlain (walk m) = false)
    (hh : lastHtmlAux (walk m) none = some "") :
    emailToText m = none := by
  rw [emailToText, emailToTextGo_noPlain _ _ hp, hh]
  rfl

/-- Witness for C10: a bare `text/html` part with empty content. -/
theorem claim_C10_witness : emailToText (.leaf "text/html" "") = none :=
  claim_C10 (.leaf "text/html" "") (by decide) rfl

/-- The configuration flags of `EmailToWordCounterTransformer.__init__`. -/
structure TokConfig where
  strip_headers : Bool
  lower_case : Bool
  remove_punctuation : Bool
  replace_urls : Bool
  replace_numbers : Bool
  stemming : Bool

/-- `text.lower()` (ASCII case folding). -/
def lowerStr (s : String) : String := ⟨s.data.map Char.toLower⟩

/-- `list(set(urls))`, modelled in first-occurrence order (Python's set
enumeration order is unspecified). -/
def dedupFold (l : List String) : List String :=
  l.foldl (fun acc s => if s ∈ acc then acc else acc ++ [s]) []

/-- Stable insertion by string length descending. -/
def insertLenDesc (u : String) : List String → List String
  | [] => [u]
  | s :: rest =>
    if u.length < s.length then s :: insertLenDesc u rest else u :: s :: rest

/-- `urls.sort(key=len, reverse=True)`: longer URLs are substituted first so
that a URL that is a substring of another is never replaced first. -/
def sortLenDesc : List String → List String
  | [] => []
  | s :: rest => insertLenDesc s (sortLenDesc rest)

/-- `text.replace(needle, repl)` for a non-empty needle: leftmost
non-overlapping occurrences.  (The URL detector never returns an empty
string, so the empty-needle case never arises.) -/
def replaceAllGo (needle repl : List Char) : Nat → List Char → List Char
  | 0, cs => cs
  | _ + 1, [] => []
  | n + 1, c :: cs =>
    if needle.isEmpty then c :: replaceAllGo needle repl n cs
    else if needle.isPrefixOf (c :: cs) then
      repl ++ replaceAllGo needle repl n (List.drop (needle.length - 1) cs)
    else c :: replaceAllGo needle repl n cs

/-- String wrapper for `replaceAllGo`. -/
def replaceAll (s needle repl : String) : String :=
  ⟨replaceAllGo needle.data repl.data (s.data.length + 1) s.data⟩

/-- `\d+` at the head: the maximal digit run and the remainder, or none. -/
def expDigits (cs : List Char) : Option (List Char) :=
  let sp := cs.span (fun c => c.isDigit)
  if sp.1.isEmpty then none else some sp.2

/-- `[+-]?\d+` at the head. -/
def expRest : List Char → Option (List Char)
  | '+' :: t => expDigits t
  | '-' :: t => expDigits t
  | t => expDigits t

/-- A maximal match of `\d+(?:\.\d*)?(?:[eE][+-]?\d+)?` at the head of the
list, returning the remainder; `none` when the head is not a digit. -/
def matchNumber (cs : List Char) : Option (List Char) :=
  let sp := cs.span (fun c => c.isDigit)
  if sp.1.isEmpty then none
  else
    let r2 := match sp.2 with
      | '.' :: t => (t.span (fun c => c.isDigit)).2
      | r => r
    let r3 := match r2 with
      | c :: t =>
        if c = 'e' ∨ c = 'E' then
          match expRest t with
          | some r => r
          | none => r2
        else r2
      | [] => r2
    some r3

/-- The literal replacement `NUMBER`. -/
def numberChars : List Char := ['N', 'U', 'M', 'B', 'E', 'R']

/-- `re.sub(r"\d+(?:\.\d*)?(?:[eE][+-]?\d+)?", "NUMBER", text)`. -/
def replaceNumbersGo : Nat → List Char → List Char
  | 0, cs => cs
  | _ + 1, [] => []
  | n + 1, c :: cs =>
    match matchNumber (c :: cs) with
    | some r => numberChars ++ replaceNumbersGo n r
    | none => c :: replaceNumbersGo n cs

/-- String wrapper for `replaceNumbersGo`. -/
def replaceNumbers (s : String) : String :=
  ⟨replaceNumbersGo (s.data.length + 1) s.data⟩

/-- A regex word character (`\w`), for ASCII. -/
def isWordChar (c : Char) : Bool := c.isAlphanum || c = '_'

/-- `re.sub(r"\W+", " ", text, flags=re.M)`: each maximal run of non-word
characters becomes a single space. -/
def replaceNonWordGo : Nat → List Char → List Char
  | 0, cs => cs
  | _ + 1, [] => []
  | n + 1, c :: cs =>
    if isWordChar c then c :: replaceNonWordGo n cs
    else ' ' :: replaceNonWordGo n (cs.dropWhile (fun d => !(isWordChar d)))

/-- String wrapper for `replaceNonWordGo`. -/
def replaceNonWord (s : String) : String :=
  ⟨replaceNonWordGo (s.data.length + 1) s.data⟩

/-- `text.split()`: split on whitespace runs, no empty tokens. -/
def wordsOfAux : List Char → List Char → List String
  | [], cur => if cur.isEmpty then [] else [⟨cur.reverse⟩]
  | c :: rest, cur =>
    if c.isWhitespace then
      if cur.isEmpty then wordsOfAux rest []
      else ⟨cur.reverse⟩ :: wordsOfAux rest []
    else wordsOfAux rest (c :: cur)

/-- String wrapper for `wordsOfAux`. -/
def wordsOf (s : String) : List String := wordsOfAux s.data []

/-- `Counter(text.split())`. -/
def countWords (ws : List String) : WordCount :=
  ws.foldl (fun acc w => updateCount acc w 1) []

/-- The stemming merge loop: `stemmed_word_counts[stemmer.stem(word)] += count`. -/
def stemCounts (stem : String → String) (wc : WordCount) : WordCount :=
  wc.foldl (fun acc p => updateCount acc (stem p.1) p.2) []

/-- The per-message body of `EmailToWordCounterTransformer.transform`,
parametric in the external URL detector (`urlextract`) and stemmer (`nltk`).
The source guards `replace_urls` and `stemming` additionally by
`url_extractor is not None` / `stemmer is not None`; both globals are
unconditionally constructed at import time, so the guards reduce to the
flags. -/
def processOne (findUrls : String → List String) (stem : String → String)
    (cfg : TokConfig) (m : EmailMsg) : WordCount :=
  let text0 := (emailToText m).getD ""
  let text1 := if cfg.lower_case then lowerStr text0 else text0
  let text2 := if cfg.replace_urls then
      (sortLenDesc (dedupFold (findUrls text1))).foldl
        (fun t u => replaceAll t u " URL ") text1
    else text1
  let text3 := if cfg.replace_numbers then replaceNumbers text2 else text2
  let text4 := if cfg.remove_punctuation then replaceNonWord text3 else text3
  let wc := countWords (wordsOf text4)
  if cfg.stemming then stemCounts stem wc else wc

/-- `EmailToWordCounterTransformer.transform`: the loop appending one
word-count per message. -/
def transformTok (findUrls : String → List String) (stem : String → String)
    (cfg : TokConfig) : List EmailMsg → List WordCount
  | [] => []
  | m :: ms => processOne findUrls stem cfg m :: transformTok findUrls stem cfg ms

/-- `EmailToWordCounterTransformer.fit`: `return self`, no state change. -/
def fitTok (cfg : TokConfig) (_X : List EmailMsg) : TokConfig := cfg

/-- **C6.** The tokenizer's `transform` returns exactly one `WordCount` per
input message, position `i` computed from input `i`; `fit` is the identity on
the transformer's state; and a message with no usable text is treated as the
empty string, yielding the empty `WordCount` without error. -/
theorem claim_C6 (findUrls : String → List String) (stem : String → String)
    (cfg : TokConfig) (X : List EmailMsg) :
    transformTok findUrls stem cfg X = X.map (processOne findUrls stem cfg)
    ∧ (transformTok findUrls stem cfg X).length = X.length
    ∧ fitTok cfg X = cfg
    ∧ (∀ m : EmailMsg, emailToText m = none → findUrls "" = [] →
        processOne findUrls stem cfg m = []) := by
  have hmap : transformTok findUrls stem cfg X = X.map (processOne findUrls stem cfg) := by
    induction X with
    | nil => rfl
    | cons m ms ih => rw [transformTok, ih, List.map_cons]
  refine ⟨hmap, by rw [hmap, List.length_map], rfl, ?_⟩
  intro m hm hf
  simp only [processOne, hm, Option.getD_none]
  have h1 : (if cfg.lower_case then lowerStr "" else "") = "" := by
    cases cfg.lower_case <;> rfl
  rw [h1, hf]
  have h2 : (if cfg.replace_urls then
      (sortLenDesc (dedupFold [])).foldl (fun t u => replaceAll t u " URL ") ""
    else "") = "" := by
    cases cfg.replace_urls <;> rfl
  rw [h2]
  have h3 : (if cfg.replace_numbers then replaceNumbers "" else "") = "" := by
    cases cfg.replace_numbers <;> rfl
  rw [h3]
  have h4 : (if cfg.remove_punctuation then replaceNonWord "" else "") = "" := by
    cases cfg.remove_punctuation <;> rfl
  rw [h4]
  cases cfg.stemming <;> rfl

/-- Witness for C6: a one-message batch produces the expected single word
count, and a message with no text part produces the empty word count. -/
theorem claim_C6_witness :
    transformTok (fun _ => []) (fun w => w)
      ⟨true, true, true, true, true, true⟩ [.leaf "text/plain" "hi hi"]
      = [[("hi", 2)]]
    ∧ processOne (fun _ => []) (fun w => w)
        ⟨true, true, true, true, true, true⟩ (.leaf "image/gif" "pic") = [] := by
  constructor
  · exact ((claim_C6 (fun _ => []) (fun w => w) ⟨true, true, true, true, true, true⟩
      [.leaf "text/plain" "hi hi"]).1).trans (by decide)
  · exact (claim_C6 (fun _ => []) (fun w => w) ⟨true, true, true, true, true, true⟩
      []).2.2.2 (.leaf "image/gif" "pic") (by decide) rfl

/-- **C9.** The `strip_headers` flag has no effect on the tokenizer's
output: no normalization step consults it. -/
theorem claim_C9 (findUrls : String → List String) (stem : String → String)
    (cfg : TokConfig) (b : Bool) (X : List EmailMsg) :
    transformTok findUrls stem { cfg with strip_headers := b } X
      = transformTok findUrls stem cfg X := by
  induction X with
  | nil => rfl
  | cons m ms ih =>
    rw [transformTok, transformTok, ih]
    rfl

end SpamPipeline
